import Mathlib

/-!
Verification of the mini-tree library: a generic N-ary tree container with
injectable comparison predicates.  `Node` embeds the `TreeNode<T>` class of
`src/index.ts` (with its cached `childCount` and `total` counters kept as
explicit fields, since several claims are about those caches), and `Tree`
embeds the `Tree<T, U>` class.  TypeScript `undefined` node values are
embedded as `none : Option T`.
-/

namespace MiniTree

/-- Embeds `TreeNode<T>`: id, value (possibly `undefined`), the cached
`childCount` and `total` counters, and the ordered children array.  The
TypeScript `parent` back-reference is not a field here; the parent-chain
counter updates of the source are modelled at each call site by rebuilding
the path from the root. -/
inductive Node (T : Type) : Type where
  | mk (id : Int) (value : Option T) (childCount : Int) (total : Int)
      (children : List (Node T)) : Node T

/-- Field `TreeNode.id`. -/
def Node.id {T : Type} : Node T → Int
  | .mk i _ _ _ _ => i

/-- Field `TreeNode.value`. -/
def Node.value {T : Type} : Node T → Option T
  | .mk _ v _ _ _ => v

/-- Field `TreeNode.childCount` (the cached direct-child counter). -/
def Node.childCount {T : Type} : Node T → Int
  | .mk _ _ c _ _ => c

/-- Field `TreeNode.total` (the cached strict-descendant counter). -/
def Node.total {T : Type} : Node T → Int
  | .mk _ _ _ t _ => t

/-- Field `TreeNode.children`. -/
def Node.children {T : Type} : Node T → List (Node T)
  | .mk _ _ _ _ cs => cs

/-- `get leaf()` of `TreeNode`: `!this.childCount`, i.e. the cached counter
is zero. -/
def Node.leaf {T : Type} (n : Node T) : Bool := n.childCount == 0

/-- `TreeNode.add(id, value)` as it acts on the node itself: push a fresh
child, increment `childCount`, increment the node's own `total`.  The
source also walks the parent chain incrementing every ancestor's `total`;
callers below reproduce that on the rebuilt path. -/
def Node.add {T : Type} (n : Node T) (cid : Int) (v : T) : Node T :=
  match n with
  | .mk i val cc tot cs => .mk i val (cc + 1) (tot + 1) (cs ++ [.mk cid (some v) 0 0 []])

/-- Embeds `Tree<T, U>`: the four predicate slots, the node counter `count`
(which doubles as the id allocator in the source), and the root node. -/
structure Tree (T U : Type) where
  addComp : Node T → T → Bool
  addEq : Node T → T → Bool
  comp : Node T → U → Bool
  eq : Node T → U → Bool
  count : Int
  root : Node T

/-- The source's `defaultEq`: `(node, value) => node.value === value`. -/
def defaultEq {T : Type} [DecidableEq T] : Node T → T → Bool :=
  fun n v => decide (n.value = some v)

/-- The source's `defaultComp`: `(_node, _value) => true`. -/
def defaultComp {T : Type} : Node T → T → Bool := fun _ _ => true

/-- The `Tree` constructor: `count = 0`, root gets id `count++` (hence id 0
and `count = 1`), and both insertion predicates are initialised from the
search predicates (the source casts `comp`/`eq` with `as any`, which forces
`U = T` at construction time). -/
def Tree.new {T : Type} (rootValue : T) (comp : Node T → T → Bool)
    (eq : Node T → T → Bool) : Tree T T :=
  { addComp := comp, addEq := eq, comp := comp, eq := eq
    count := 1, root := .mk 0 (some rootValue) 0 0 [] }

/-- `Tree.onAdd(addEq, addComp)`: replace the insertion predicates. -/
def Tree.onAdd {T U : Type} (t : Tree T U) (aEq aComp : Node T → T → Bool) :
    Tree T U :=
  { t with addEq := aEq, addComp := aComp }

/-- `Tree.clear()`: `count = 0`, then a fresh root with id `count++` and the
previous root's value. -/
def Tree.clear {T U : Type} (t : Tree T U) : Tree T U :=
  { t with count := 1, root := .mk 0 t.root.value 0 0 [] }

mutual

/-- The recursive descent of `Tree.add(value, root)`: return at once on an
`addEq` match of the current root; otherwise, unless the root is a leaf,
scan the children; if the scan falls through, append a fresh child via
`TreeNode.add` using the candidate id `nid` (the source passes
`this.count++`).  Returns the rebuilt node and whether a node was inserted
somewhere below it; on an insertion the node's `total` is incremented,
which is the parent-chain `total++` walk of `TreeNode.add` restricted to
this node. -/
def addNode {T : Type} (aEq aComp : Node T → T → Bool) (nid : Int) (v : T) :
    Node T → Node T × Bool
  | n@(.mk i val cc tot cs) =>
    if aEq n v then (n, false)
    else if n.leaf then (n.add nid v, true)
    else
      match addScan aEq aComp nid v cs with
      | some (cs2, inserted) =>
          (.mk i val cc (if inserted then tot + 1 else tot) cs2, inserted)
      | none => (n.add nid v, true)
  termination_by structural n => n

/-- The `for (const child of root.children)` loop of `Tree.add`: `none`
means the loop finished without an early return (so the caller appends a
fresh child); `some (cs', inserted)` means the loop returned early, with
the updated children and whether an insertion happened. -/
def addScan {T : Type} (aEq aComp : Node T → T → Bool) (nid : Int) (v : T) :
    List (Node T) → Option (List (Node T) × Bool)
  | [] => none
  | c :: rest =>
    if aEq c v then some (c :: rest, false)
    else if aComp c v then
      let p := addNode aEq aComp nid v c
      some (p.1 :: rest, p.2)
    else
      match addScan aEq aComp nid v rest with
      | some (rest2, inserted) => some (c :: rest2, inserted)
      | none => none
  termination_by structural cs => cs

end

/-- `Tree.add(value)` starting at the tree root: run the descent with the
current `count` as candidate id; on an insertion `count` is incremented
(the source's `this.count++`). -/
def Tree.add {T U : Type} (t : Tree T U) (v : T) : Tree T U :=
  let p := addNode t.addEq t.addComp t.count v t.root
  { t with root := p.1, count := if p.2 then t.count + 1 else t.count }

/-- `Tree.addAll(values)`: sequentially `add` each value. -/
def Tree.addAll {T U : Type} (t : Tree T U) (vs : List T) : Tree T U :=
  vs.foldl Tree.add t

/-- `Tree.add(value, node)` for an explicit sub-root `node`, addressed by
its child-index path from the tree root.  The `total` increments that
`TreeNode.add` performs on the parent chain above the sub-root are applied
along the rebuilt path. -/
def addNodeAt {T : Type} (aEq aComp : Node T → T → Bool) (nid : Int) (v : T) :
    List Nat → Node T → Node T × Bool
  | [], n => addNode aEq aComp nid v n
  | k :: ks, .mk i val cc tot cs =>
    match cs[k]? with
    | some c =>
      let p := addNodeAt aEq aComp nid v ks c
      (.mk i val cc (if p.2 then tot + 1 else tot) (cs.set k p.1), p.2)
    | none => (.mk i val cc tot cs, false)

/-- Tree-level wrapper for `addNodeAt`. -/
def Tree.addAt {T U : Type} (t : Tree T U) (path : List Nat) (v : T) : Tree T U :=
  let p := addNodeAt t.addEq t.addComp t.count v path t.root
  { t with root := p.1, count := if p.2 then t.count + 1 else t.count }

mutual

/-- The recursion of `Tree.has(value, root, eq, comp)`.  Faithful to the
source, which tests `this.#eq(root, value)` and then scans the children
with `this.#eq` / `this.#comp` — the stored predicates — so only they
appear here. -/
def hasNode {T U : Type} (eqS compS : Node T → U → Bool) (v : U) :
    Node T → Bool
  | n@(.mk _ _ _ _ cs) =>
    if eqS n v then true
    else if n.leaf then false
    else
      match hasScan eqS compS v cs with
      | some b => b
      | none => false
  termination_by structural n => n

/-- The child loop of `Tree.has`: `some true` on an `eq` match, `some` of
the recursive result on the first `comp` match (the source returns it
directly), `none` when the loop falls through. -/
def hasScan {T U : Type} (eqS compS : Node T → U → Bool) (v : U) :
    List (Node T) → Option Bool
  | [] => none
  | c :: rest =>
    if eqS c v then some true
    else if compS c v then some (hasNode eqS compS v c)
    else hasScan eqS compS v rest
  termination_by structural cs => cs

end

/-- `Tree.has(value, root, eq, comp)`: the source declares the `eq` and
`comp` parameters (defaulting to the stored predicates) and passes them
along recursive calls, but every test in the body uses `this.#eq` and
`this.#comp`, so the supplied arguments are never consulted. -/
def Tree.has {T U : Type} (t : Tree T U) (v : U) (root : Node T := t.root)
    (_eqArg : Node T → U → Bool := t.eq) (_compArg : Node T → U → Bool := t.comp) :
    Bool :=
  hasNode t.eq t.comp v root

mutual

/-- The recursion of `Tree.remove` below an unmatched node: nothing at a
leaf; otherwise run the child loop and apply its effects.  Returns the
rebuilt node together with the loop's `total` decrement (which the source's
`removeMeta` walks up through every ancestor — note it subtracts
`child.total`, not `child.total + 1`) and the `count` decrement (which
subtracts `child.total + 1` per detached child). -/
def removeNode {T U : Type} (eqS compS : Node T → U → Bool) (v : U) :
    Node T → Node T × Int × Int
  | n@(.mk i val cc tot cs) =>
    if n.leaf then (n, 0, 0)
    else
      let r := removeScan eqS compS v cs
      (.mk i val (cc - r.2.1) (tot - r.2.2.1) r.1, r.2.2.1, r.2.2.2)
  termination_by structural n => n

/-- The `for (const child of children)` loop of `Tree.remove` over the live
children array.  A child matching `eq` is spliced out, and — because the
source mutates the array it is iterating — the element that slides into
its place is skipped by the iterator and kept unexamined.  A child matching
`comp` is recursed into.  Returns the surviving children, the number
detached at this level, the accumulated `total` decrement (cached
`child.total` per detached child plus the decrements from recursion), and
the accumulated `count` decrement (`child.total + 1` per detached child).
-/
def removeScan {T U : Type} (eqS compS : Node T → U → Bool) (v : U) :
    List (Node T) → List (Node T) × Int × Int × Int
  | [] => ([], 0, 0, 0)
  | c :: rest =>
    if eqS c v then
      match rest with
      | [] => ([], 1, c.total, c.total + 1)
      | d :: rest2 =>
        let r := removeScan eqS compS v rest2
        (d :: r.1, 1 + r.2.1, c.total + r.2.2.1, (c.total + 1) + r.2.2.2)
    else if compS c v then
      let p := removeNode eqS compS v c
      let r := removeScan eqS compS v rest
      (p.1 :: r.1, r.2.1, p.2.1 + r.2.2.1, p.2.2 + r.2.2.2)
    else
      let r := removeScan eqS compS v rest
      (c :: r.1, r.2.1, r.2.2.1, r.2.2.2)
  termination_by structural cs => cs

end

/-- `Tree.remove(value, root, comp, traverser)` started at the tree root.
If the stored `eq` matches the root (which has no parent), the whole tree
is replaced by a fresh singleton root with id 0 and an undefined value and
`count` is set to 0.  Otherwise, unless the root is a leaf, the child loop
runs.  Like `has`, the source declares `comp`/`traverser` parameters but
consults only the stored `this.#eq` / `this.#comp`. -/
def Tree.remove {T U : Type} (t : Tree T U) (v : U)
    (_compArg : Node T → U → Bool := t.eq)
    (_travArg : Node T → U → Bool := t.comp) : Tree T U :=
  if t.eq t.root v then
    { t with root := .mk 0 none 0 0 [], count := 0 }
  else if t.root.leaf then t
  else
    let p := removeNode t.eq t.comp v t.root
    { t with root := p.1, count := t.count - p.2.2 }

mutual

/-- The recursion of `Tree.branch(targetValue, root, store)`: unless the
root is a leaf, scan the children; when the scan (or a leaf root) falls
through, return the accumulated store if `eq` matches the current root and
a fresh empty array otherwise.  The result is the pair (returned array,
final state of the caller's store array) — the source mutates `store` by
`push`, so the two differ exactly when the lookup fails after a partial
descent. -/
def branchGo {T U : Type} (eqS compS : Node T → U → Bool) (v : U) :
    Node T → List (Option T) → List (Option T) × List (Option T)
  | n@(.mk _ _ _ _ cs), store =>
    if n.leaf then
      if eqS n v then (store, store) else ([], store)
    else
      match branchScan eqS compS v cs store with
      | some r => r
      | none => if eqS n v then (store, store) else ([], store)
  termination_by structural n => n

/-- The child loop of `Tree.branch`: a leaf child matching `eq` is pushed
and the store returned; the first child matching `comp` is pushed and
recursed into (the source returns the recursive result directly); `none`
when the loop falls through. -/
def branchScan {T U : Type} (eqS compS : Node T → U → Bool) (v : U) :
    List (Node T) → List (Option T) →
    Option (List (Option T) × List (Option T))
  | [], _ => none
  | c :: rest, store =>
    if c.leaf && eqS c v then some (store ++ [c.value], store ++ [c.value])
    else if compS c v then some (branchGo eqS compS v c (store ++ [c.value]))
    else branchScan eqS compS v rest store
  termination_by structural cs => cs

end

/-- `Tree.branch(targetValue)` with the default arguments: root is the tree
root and the store starts as `[root.value]`.  First component of the pair:
the returned array. -/
def Tree.branch {T U : Type} (t : Tree T U) (v : U) : List (Option T) :=
  (branchGo t.eq t.comp v t.root [t.root.value]).1

mutual

/-- The recursion of `Tree.branchAll(targetValue, root, store, found)`.
Same store-pair convention as `branchGo`. -/
def branchAllGo {T U : Type} (eqS compS : Node T → U → Bool) (v : U) :
    Node T → List (Option T) → Bool → List (Option T) × List (Option T)
  | n@(.mk _ _ _ _ cs), store, found =>
    if n.leaf then
      if found || eqS n v then (store, store) else ([], store)
    else
      match branchAllScan eqS compS v cs store found with
      | (some r, _) => r
      | (none, store2) =>
        if found || eqS n v then (store2, store2) else ([], store2)
  termination_by structural n => n

/-- The child loop of `Tree.branchAll`.  Once `found` is set, every child
is pushed; a leaf child lets the loop continue, the first non-leaf child is
recursed into and its result returned — later siblings are abandoned.
Before `found`, a child matching `eq` sets `found`, is pushed and (unless a
leaf) recursed into; a child matching `comp` is pushed and recursed into.
Returns either an early result (`some`) or the grown store at loop end. -/
def branchAllScan {T U : Type} (eqS compS : Node T → U → Bool) (v : U) :
    List (Node T) → List (Option T) → Bool →
    Option (List (Option T) × List (Option T)) × List (Option T)
  | [], store, _ => (none, store)
  | c :: rest, store, found =>
    if found then
      if c.leaf then branchAllScan eqS compS v rest (store ++ [c.value]) found
      else (some (branchAllGo eqS compS v c (store ++ [c.value]) true), store ++ [c.value])
    else if eqS c v then
      if c.leaf then (some (store ++ [c.value], store ++ [c.value]), store ++ [c.value])
      else (some (branchAllGo eqS compS v c (store ++ [c.value]) true), store ++ [c.value])
    else if compS c v then
      (some (branchAllGo eqS compS v c (store ++ [c.value]) false), store ++ [c.value])
    else branchAllScan eqS compS v rest store found
  termination_by structural cs => cs

end

/-- `Tree.branchAll(targetValue)` with the default arguments: store starts
as `[root.value]` and `found` as `eq(root, targetValue)`. -/
def Tree.branchAll {T U : Type} (t : Tree T U) (v : U) : List (Option T) :=
  (branchAllGo t.eq t.comp v t.root [t.root.value] (t.eq t.root v)).1

mutual

/-- Number of nodes in a subtree. -/
def nodeSize {T : Type} : Node T → Nat
  | .mk _ _ _ _ cs => 1 + forestSize cs
  termination_by structural n => n

/-- Number of nodes in a forest. -/
def forestSize {T : Type} : List (Node T) → Nat
  | [] => 0
  | c :: rest => nodeSize c + forestSize rest
  termination_by structural cs => cs

end

/-- The breadth-first queue loop, driven by a fuel counter so that it is
structurally recursive (each dequeued node consumes one unit, and a queue
of forests holds exactly `forestSize` nodes, so the fuel in `bfsAux` never
runs out — see `bfsAux_cons`). -/
def bfsFuel {T : Type} : Nat → List (Node T) → List (Node T)
  | _, [] => []
  | 0, _ :: _ => []
  | fuel + 1, n :: queue => n :: bfsFuel fuel (queue ++ n.children)

/-- The tree's breadth-first iterator (`Symbol.iterator`): a FIFO queue
seeded with the root; each dequeued node is yielded and its children are
enqueued in order.  `bfsAux_nil` and `bfsAux_cons` below are exactly the
loop equations. -/
def bfsAux {T : Type} (l : List (Node T)) : List (Node T) :=
  bfsFuel (forestSize l) l

/-- The ids of the tree's nodes in breadth-first order. -/
def Tree.bfsIds {T U : Type} (t : Tree T U) : List Int :=
  (bfsAux [t.root]).map Node.id

/-- The node values in breadth-first order — exactly the sequence that
`Tree.toJSON()` stringifies (the JSON text is `[` plus the comma-joined
individually-stringified values plus `]`, so two trees produce the same
JSON string iff they produce the same value sequence). -/
def Tree.toJSONValues {T U : Type} (t : Tree T U) : List (Option T) :=
  (bfsAux [t.root]).map Node.value

/-- `JSON.parse` of `Tree.toJSON()` for a tree whose node values are all
defined: the breadth-first value sequence with the `Option` layer
stripped. -/
def Tree.parsedValues {T U : Type} (t : Tree T U) : List T :=
  t.toJSONValues.filterMap (fun x => x)

mutual

/-- All nodes of a subtree, the subtree root first. -/
def nodesOf {T : Type} : Node T → List (Node T)
  | n@(.mk _ _ _ _ cs) => n :: nodesOfList cs
  termination_by structural n => n

/-- All nodes of a forest, in child order. -/
def nodesOfList {T : Type} : List (Node T) → List (Node T)
  | [] => []
  | c :: rest => nodesOf c ++ nodesOfList rest
  termination_by structural cs => cs

end

/-- Sum of `1 + child.total` over a children list, using the cached
`total` fields — the right-hand side of the documented invariant. -/
def sumTotals {T : Type} (cs : List (Node T)) : Int :=
  (cs.map (fun c => 1 + c.total)).sum

mutual

/-- The documented invariant on the `total` caches: every node of the
subtree satisfies `total == Σ over children of (1 + child.total)`. -/
def totalOk {T : Type} : Node T → Bool
  | .mk _ _ _ tot cs => (tot == sumTotals cs) && totalOkList cs
  termination_by structural n => n

/-- `totalOk` on every tree of a forest. -/
def totalOkList {T : Type} : List (Node T) → Bool
  | [] => true
  | c :: rest => totalOk c && totalOkList rest
  termination_by structural cs => cs

end

mutual

/-- Whether the first-match-wins descent of `Tree.add` encounters a node
matching `addEq` — exactly the condition under which the source's `add`
returns without inserting. -/
def dupOnPath {T : Type} (aEq aComp : Node T → T → Bool) (v : T) :
    Node T → Bool
  | n@(.mk _ _ _ _ cs) =>
    if aEq n v then true
    else if n.leaf then false
    else dupScan aEq aComp v cs
  termination_by structural n => n

/-- The child-loop part of `dupOnPath`. -/
def dupScan {T : Type} (aEq aComp : Node T → T → Bool) (v : T) :
    List (Node T) → Bool
  | [] => false
  | c :: rest =>
    if aEq c v then true
    else if aComp c v then dupOnPath aEq aComp v c
    else dupScan aEq aComp v rest
  termination_by structural cs => cs

end

/-- A chain (each node has at most one child) with sequential ids starting
at `i`, head value `x` and the remaining values `rest` below it; the
cached counters are the ones `Tree.add` maintains on such a tree. -/
def chainNode {T : Type} (i : Int) (x : T) : List T → Node T
  | [] => .mk i (some x) 0 0 []
  | y :: rest => .mk i (some x) 1 (1 + rest.length) [chainNode (i + 1) y rest]

/-- Insertion-order deduplication: extend the accumulated chain tail `acc`
(whose head value is the root value `r`) with each value of `vs` that is
not already present. -/
def extendTail {T : Type} [DecidableEq T] (r : T) (acc : List T) :
    List T → List T
  | [] => acc
  | v :: vs => extendTail r (if v = r ∨ v ∈ acc then acc else acc ++ [v]) vs

/-! Concrete predicate instances and scenario trees used by the claims. -/

/-- The default equality predicate at `T = Int`. -/
def eqDef (n : Node Int) (v : Int) : Bool := decide (n.value = some v)

/-- The traversal predicate `(node, value) => value > node.value` used by
the test suite's number tree. -/
def compGT (n : Node Int) (v : Int) : Bool :=
  match n.value with
  | some x => decide (x < v)
  | none => false

/-- An equality predicate matched by every node whose value exceeds the
target: `(node, value) => node.value > value`. -/
def eqGT (n : Node Int) (v : Int) : Bool :=
  match n.value with
  | some x => decide (v < x)
  | none => false

/-- The constantly false predicate. -/
def falseP (_ : Node Int) (_ : Int) : Bool := false

/-- The constantly true predicate. -/
def trueP (_ : Node Int) (_ : Int) : Bool := true

/-- `new Tree(0, (n, v) => v > n.value)` with default equality, after
`add 5; add 3; add 7` — the spec's concrete scenario: root 0 with children
`[5, 3]` and 7 under 5. -/
def exBase : Tree Int Int := (((Tree.new 0 compGT eqDef).add 5).add 3).add 7

/-- `exBase` after `remove(5)`: the 5-subtree (nodes 5 and 7) is detached. -/
def exRemoved : Tree Int Int := exBase.remove 5

/-- A star-shaped tree with children `[5, 3]` built with separate insertion
predicates (`onAdd`), whose removal-equality predicate `eqGT` matches both
children for target 2. -/
def exStar : Tree Int Int :=
  ((((Tree.new 0 compGT eqGT).onAdd eqDef falseP).add 5).add 3)

/-- `new Tree(0)` with both default predicates. -/
def exDefault : Tree Int Int := Tree.new 0 defaultComp defaultEq

/-- A chain `0 → 1 → 2` built with the default predicates. -/
def exChain : Tree Int Int := (Tree.new 0 defaultComp defaultEq).addAll [1, 2]

/-- A tree whose equality predicate is constantly false, built by
`addAll [1, 1]`: a chain `0 → 1 → 1` holding a duplicate value. -/
def exDup : Tree Int Int := (Tree.new 0 trueP falseP).addAll [1, 1]

/-- `new Tree(0, (n, v) => v > n.value)` after `add(5)` and then
`add(3, node5)` — a sub-root insertion placing 3 under 5, where the
root-level descent for 3 cannot reach it. -/
def exSubPre : Tree Int Int := ((Tree.new 0 compGT eqDef).add 5).addAt [0] 3

/-! Theorems. -/

theorem forestSize_append {T : Type} :
    ∀ a b : List (Node T), forestSize (a ++ b) = forestSize a + forestSize b
  | [], _ => by simp [forestSize]
  | c :: rest, b => by
    have ih := forestSize_append rest b
    show nodeSize c + forestSize (rest ++ b) = nodeSize c + forestSize rest + forestSize b
    omega

theorem forestSize_children_lt {T : Type} (n : Node T) :
    forestSize n.children < nodeSize n := by
  match n with
  | .mk i v cc tot cs => simp [Node.children, nodeSize]

theorem bfs_measure_lt {T : Type} (n : Node T) (q : List (Node T)) :
    forestSize (q ++ n.children) < forestSize (n :: q) := by
  rw [forestSize_append]
  have h1 := forestSize_children_lt n
  have h2 : forestSize (n :: q) = nodeSize n + forestSize q := rfl
  omega

theorem nodeSize_pos {T : Type} (n : Node T) : 0 < nodeSize n := by
  match n with
  | .mk i v cc tot cs => show 0 < 1 + forestSize cs; omega

theorem bfsFuel_congr {T : Type} :
    ∀ f g (l : List (Node T)), forestSize l ≤ f → forestSize l ≤ g →
      bfsFuel f l = bfsFuel g l := by
  intro f
  induction f with
  | zero =>
    intro g l hf _
    match l with
    | [] => match g with | 0 => rfl | _ + 1 => rfl
    | n :: queue =>
      exfalso
      have h1 := nodeSize_pos n
      have h2 : forestSize (n :: queue) = nodeSize n + forestSize queue := rfl
      omega
  | succ f ih =>
    intro g l hf hg
    match l with
    | [] => match g with | 0 => rfl | _ + 1 => rfl
    | n :: queue =>
      have h1 := nodeSize_pos n
      have h2 : forestSize (n :: queue) = nodeSize n + forestSize queue := rfl
      match g with
      | 0 => exfalso; omega
      | g + 1 =>
        show n :: bfsFuel f (queue ++ n.children) = n :: bfsFuel g (queue ++ n.children)
        have h3 : forestSize (queue ++ n.children) < forestSize (n :: queue) :=
          bfs_measure_lt n queue
        rw [ih g (queue ++ n.children) (by omega) (by omega)]

theorem bfsAux_nil {T : Type} : bfsAux ([] : List (Node T)) = [] := rfl

theorem bfsAux_cons {T : Type} (n : Node T) (queue : List (Node T)) :
    bfsAux (n :: queue) = n :: bfsAux (queue ++ n.children) := by
  have h1 := nodeSize_pos n
  have h2 : forestSize (n :: queue) = nodeSize n + forestSize queue := rfl
  have h3 : forestSize (queue ++ n.children) < forestSize (n :: queue) :=
    bfs_measure_lt n queue
  unfold bfsAux
  match hfs : forestSize (n :: queue) with
  | 0 => exfalso; omega
  | f + 1 =>
    show n :: bfsFuel f (queue ++ n.children) = _
    rw [bfsFuel_congr f (forestSize (queue ++ n.children)) (queue ++ n.children)
      (by omega) (by omega)]

/-- C1: the documented invariant `total == Σ over children of (1 + child.total)`
must hold after every add/remove sequence — but after building root 0 with
children `[5, 3]` and 7 under 5 and then removing 5, the root's cached
`total` is 2 while its only remaining child (the leaf 3) contributes 1:
`removeMeta` decrements ancestor totals by `child.total` instead of
`child.total + 1`. -/
theorem C1_total_invariant_code_bug :
    totalOk exRemoved.root = false ∧
    exRemoved.root.total = 2 ∧
    sumTotals exRemoved.root.children = 1 ∧
    exRemoved.root.children.map Node.value = [some 3] := by decide

/-- C2: `tree.count == tree.root.total + 1` must hold between operations —
but after the same removal, `count = 2` while `root.total + 1 = 3`, because
`removeMeta` subtracts `child.total + 1` from `count` and only
`child.total` from the ancestors' `total`. -/
theorem C2_count_invariant_code_bug :
    exRemoved.count = 2 ∧ exRemoved.root.total + 1 = 3 := by decide

/-- C3: node ids must stay unique among live nodes and never be reused —
but ids are allocated from `count`, which shrinks on removal: after
`add 5; add 3; add 7; remove 5`, a further `add 4` hands out id 2, which
the live node 3 already bears, so the breadth-first id sequence is
`[0, 2, 2]`. -/
theorem C3_id_reuse_code_bug :
    (exRemoved.add 4).bfsIds = [0, 2, 2] ∧
    ¬ (exRemoved.add 4).bfsIds.Nodup := by decide

/-- C4: every child of an unmatched non-leaf root matching `eq` must be
detached, even adjacent siblings — but `remove` splices the children array
while iterating it, so after detaching the first matching child the
iterator skips the sibling that slid into its place: with children
`[5, 3]` and an equality predicate matching both for target 2, only 5 is
detached and 3 survives. -/
theorem C4_adjacent_match_code_bug :
    exStar.eq exStar.root 2 = false ∧
    exStar.root.leaf = false ∧
    exStar.root.children.map Node.value = [some 5, some 3] ∧
    (∀ c ∈ exStar.root.children, exStar.eq c 2 = true) ∧
    (exStar.remove 2).root.children.map Node.value = [some 3] := by decide

/-- C6: the explicitly supplied `eq`/`comp` arguments of `has` must govern
the search — but the source consults only the stored `this.#eq` and
`this.#comp`: on a fresh default tree, `has(5, root, alwaysTrue,
alwaysTrue)` returns `false` even though the supplied equality predicate
holds at the root (the claim requires `true`). -/
theorem C6_supplied_predicates_ignored_code_bug :
    trueP exDefault.root 5 = true ∧
    exDefault.has 5 exDefault.root trueP trueP = false := by decide

/-- C8: removing a value matching the (parentless) tree root replaces the
whole tree by a fresh singleton root with an undefined value and sets
`count` to 0. -/
theorem C8_root_removal {T U : Type} (t : Tree T U) (v : U)
    (h : t.eq t.root v = true) :
    (t.remove v).root = Node.mk 0 none 0 0 [] ∧
    (t.remove v).count = 0 ∧
    (t.remove v).root.value = none := by
  simp [Tree.remove, h, Node.value]

/-- Witness for C8 on the concrete default tree with root value 0. -/
theorem C8_witness :
    exDefault.eq exDefault.root 0 = true ∧
    (exDefault.remove 0).root = Node.mk 0 none 0 0 [] ∧
    (exDefault.remove 0).count = 0 ∧
    (exDefault.remove 0).root.value = none :=
  ⟨by decide, C8_root_removal exDefault 0 (by decide)⟩

/-- C5 counterexample: after `add(5)` and the sub-root insertion
`add(3, node5)`, the insert-equality predicate matches an existing node
holding 3, yet a further root-level `add(3)` is not a no-op: the
first-match descent (5 is not entered since `3 > 5` fails) never sees the
duplicate and both `count` and the root's child list change. -/
theorem C5_counterexample :
    ((nodesOf exSubPre.root).any (fun m => exSubPre.addEq m 3) = true) ∧
    (exSubPre.add 3).count = 4 ∧
    exSubPre.count = 3 ∧
    exSubPre.root.childCount = 1 ∧
    (exSubPre.add 3).root.childCount = 2 := by decide

/-- C7 counterexample: on the scenario tree (root 0, children `[5, 3]`,
7 under 5) the equality predicate identifies exactly one node, the
non-leaf root, for target 0; `branch(0) = [0]` and
`branchAll(0) = [0, 5, 7]`, so the superset part holds here — but the
descendant 3 of the identified node is missing from `branchAll`, because
the found-phase walks only the leftmost expansion and abandons siblings
after the first non-leaf child. -/
theorem C7_counterexample :
    ((nodesOf exBase.root).countP (fun m => exBase.eq m 0) = 1) ∧
    (∀ m ∈ nodesOf exBase.root, exBase.eq m 0 = true → m.leaf = false) ∧
    exBase.branch 0 = [some 0] ∧
    exBase.branchAll 0 = [some 0, some 5, some 7] ∧
    some 3 ∈ exBase.root.children.map Node.value ∧
    some 3 ∉ exBase.branchAll 0 := by decide

mutual

theorem addNode_dup {T : Type} (aEq aComp : Node T → T → Bool) (nid : Int) (v : T) :
    ∀ n : Node T, dupOnPath aEq aComp v n = true →
      addNode aEq aComp nid v n = (n, false)
  | .mk i val cc tot cs, h => by
    simp only [dupOnPath] at h
    by_cases h1 : aEq (.mk i val cc tot cs) v
    · simp [addNode, h1]
    · by_cases h2 : (Node.mk i val cc tot cs).leaf
      · simp [h1, h2] at h
      · have h3 : dupScan aEq aComp v cs = true := by simpa [h1, h2] using h
        have h4 := addScan_dup aEq aComp nid v cs h3
        simp [addNode, h1, h2, h4]
  termination_by structural n => n

theorem addScan_dup {T : Type} (aEq aComp : Node T → T → Bool) (nid : Int) (v : T) :
    ∀ cs : List (Node T), dupScan aEq aComp v cs = true →
      addScan aEq aComp nid v cs = some (cs, false)
  | [], h => by simp [dupScan] at h
  | c :: rest, h => by
    simp only [dupScan] at h
    by_cases h1 : aEq c v
    · simp [addScan, h1]
    · by_cases h2 : aComp c v
      · have h3 : dupOnPath aEq aComp v c = true := by simpa [h1, h2] using h
        have h4 := addNode_dup aEq aComp nid v c h3
        simp [addScan, h1, h2, h4]
      · have h3 : dupScan aEq aComp v rest = true := by simpa [h1, h2] using h
        have h4 := addScan_dup aEq aComp nid v rest h3
        simp [addScan, h1, h2, h4]
  termination_by structural cs => cs

end

/-- C5 (amended): inserting a value whose insert-equality predicate matches
a node encountered on the first-match-wins insertion descent from the tree
root (the root itself, or a scanned child of a node on the descent path) is
a no-op: the tree — its count and its shape — is unchanged.  (The original
claim, over a match anywhere in the tree, is refuted by
`C5_counterexample`: nodes placed by sub-root insertion may be unreachable
by the descent.) -/
theorem C5_amended_descent_dup_noop {T U : Type} (t : Tree T U) (v : T)
    (h : dupOnPath t.addEq t.addComp v t.root = true) : t.add v = t := by
  have h4 := addNode_dup t.addEq t.addComp t.count v t.root h
  simp [Tree.add, h4]

/-- Witness for C5 (amended): re-adding 7 to the scenario tree finds the
existing node 7 on the descent and changes nothing. -/
theorem C5_witness :
    dupOnPath exBase.addEq exBase.addComp 7 exBase.root = true ∧
    exBase.add 7 = exBase :=
  ⟨by decide, C5_amended_descent_dup_noop exBase 7 (by decide)⟩

mutual

theorem branchGo_store_split {T U : Type} (eqS compS : Node T → U → Bool) (v : U) :
    ∀ n : Node T, ∀ a b : List (Option T),
      (branchGo eqS compS v n (a ++ b)).2 = a ++ (branchGo eqS compS v n b).2
  | .mk i val cc tot cs, a, b => by
    by_cases h2 : (Node.mk i val cc tot cs).leaf
    · by_cases h1 : eqS (.mk i val cc tot cs) v <;> simp [branchGo, h1, h2]
    · have hs := branchScan_store_split eqS compS v cs a b
      rcases hs with ⟨hn1, hn2⟩ | ⟨r1, r2, hr1, hr2, hr⟩
      · by_cases h1 : eqS (.mk i val cc tot cs) v <;>
          simp [branchGo, h1, h2, hn1, hn2]
      · simp [branchGo, h2, hr1, hr2, hr]
  termination_by structural n => n

theorem branchScan_store_split {T U : Type} (eqS compS : Node T → U → Bool) (v : U) :
    ∀ cs : List (Node T), ∀ a b : List (Option T),
      (branchScan eqS compS v cs (a ++ b) = none ∧
        branchScan eqS compS v cs b = none) ∨
      (∃ r1 r2, branchScan eqS compS v cs (a ++ b) = some r1 ∧
        branchScan eqS compS v cs b = some r2 ∧ r1.2 = a ++ r2.2)
  | [], a, b => by simp [branchScan]
  | c :: rest, a, b => by
    by_cases h1 : c.leaf && eqS c v
    · right
      refine ⟨((a ++ b) ++ [c.value], (a ++ b) ++ [c.value]),
        (b ++ [c.value], b ++ [c.value]), by simp [branchScan, h1], by
          simp [branchScan, h1], by simp⟩
    · by_cases h2 : compS c v
      · right
        have hg := branchGo_store_split eqS compS v c a (b ++ [c.value])
        refine ⟨branchGo eqS compS v c ((a ++ b) ++ [c.value]),
          branchGo eqS compS v c (b ++ [c.value]),
          by simp [branchScan, h1, h2], by simp [branchScan, h1, h2], ?_⟩
        rw [List.append_assoc]
        exact hg
      · have := branchScan_store_split eqS compS v rest a b
        rcases this with ⟨hn1, hn2⟩ | ⟨r1, r2, hr1, hr2, hr⟩
        · left; simp [branchScan, h1, h2, hn1, hn2]
        · right; exact ⟨r1, r2, by simp [branchScan, h1, h2, hr1],
            by simp [branchScan, h1, h2, hr2], hr⟩
  termination_by structural cs => cs

end

/-- C10: for every tree, sub-root and caller-supplied store, when `branch`
reports failure (returns a new empty array), the caller's store array has
nevertheless been extended in place by the values of the partial descent
path — the pushes `branch` performs starting from an empty store. -/
theorem C10_branch_mutates_store {T U : Type} (t : Tree T U) (v : U)
    (n : Node T) (store : List (Option T))
    (_hfail : (branchGo t.eq t.comp v n store).1 = []) :
    (branchGo t.eq t.comp v n store).2 =
      store ++ (branchGo t.eq t.comp v n []).2 := by
  have h := branchGo_store_split t.eq t.comp v n store []
  simpa using h

/-- Witness for C10: looking up 5 in the default chain `0 → 1 → 2` fails
(returns `[]`), yet the caller's store `[0]` ends as `[0, 1, 2]` — the
partial path `[1, 2]` was pushed onto it. -/
theorem C10_witness :
    (branchGo exChain.eq exChain.comp 5 exChain.root [some 0]).1 = [] ∧
    (branchGo exChain.eq exChain.comp 5 exChain.root [some 0]).2 =
      [some 0] ++ (branchGo exChain.eq exChain.comp 5 exChain.root []).2 ∧
    (branchGo exChain.eq exChain.comp 5 exChain.root []).2 =
      [some 1, some 2] :=
  ⟨by decide, C10_branch_mutates_store exChain 5 exChain.root [some 0] (by decide),
    by decide⟩

/-- C9 counterexample: with an always-descend traversal predicate and a
constantly false equality predicate, `addAll [1, 1]` builds the chain
`0 → 1 → 1` (count 3); rebuilding a fresh tree from the same root value
and predicates by bulk-inserting the parsed breadth-first value sequence
`[0, 1, 1]` yields count 4 and value sequence `[0, 0, 1, 1]` — neither
`count` nor `toJSON` round-trips. -/
theorem C9_counterexample :
    exDup.count = 3 ∧
    exDup.toJSONValues = [some 0, some 1, some 1] ∧
    exDup.parsedValues = [0, 1, 1] ∧
    ((Tree.new 0 trueP falseP).addAll exDup.parsedValues).count = 4 ∧
    ((Tree.new 0 trueP falseP).addAll exDup.parsedValues).toJSONValues =
      [some 0, some 0, some 1, some 1] := by decide

theorem addNode_of_eq {T : Type} (aEq aComp : Node T → T → Bool) (nid : Int)
    (v : T) (n : Node T) (h : aEq n v = true) :
    addNode aEq aComp nid v n = (n, false) := by
  match n with
  | .mk i val cc tot cs => rw [addNode]; simp [h]

theorem addNode_of_leaf {T : Type} (aEq aComp : Node T → T → Bool) (nid : Int)
    (v : T) (n : Node T) (h : aEq n v = false) (hl : n.leaf = true) :
    addNode aEq aComp nid v n = (n.add nid v, true) := by
  match n with
  | .mk i val cc tot cs => rw [addNode]; simp [h, hl]

theorem addNode_of_scan {T : Type} (aEq aComp : Node T → T → Bool) (nid : Int)
    (v : T) (n : Node T) (h : aEq n v = false) (hl : n.leaf = false) :
    addNode aEq aComp nid v n =
      match addScan aEq aComp nid v n.children with
      | some (cs2, inserted) =>
          (.mk n.id n.value n.childCount
            (if inserted then n.total + 1 else n.total) cs2, inserted)
      | none => (n.add nid v, true) := by
  match n with
  | .mk i val cc tot cs =>
    rw [addNode]
    simp [h, hl, Node.id, Node.value, Node.childCount, Node.total, Node.children]

theorem addScan_cons_of_eq {T : Type} (aEq aComp : Node T → T → Bool)
    (nid : Int) (v : T) (c : Node T) (rest : List (Node T))
    (h : aEq c v = true) :
    addScan aEq aComp nid v (c :: rest) = some (c :: rest, false) := by
  rw [addScan]; simp [h]

theorem addScan_cons_of_comp {T : Type} (aEq aComp : Node T → T → Bool)
    (nid : Int) (v : T) (c : Node T) (rest : List (Node T))
    (h : aEq c v = false) (h2 : aComp c v = true) :
    addScan aEq aComp nid v (c :: rest) =
      some ((addNode aEq aComp nid v c).1 :: rest, (addNode aEq aComp nid v c).2) := by
  rw [addScan]; simp [h, h2]

theorem addScan_cons_of_skip {T : Type} (aEq aComp : Node T → T → Bool)
    (nid : Int) (v : T) (c : Node T) (rest : List (Node T))
    (h : aEq c v = false) (h2 : aComp c v = false) :
    addScan aEq aComp nid v (c :: rest) =
      match addScan aEq aComp nid v rest with
      | some (rest2, inserted) => some (c :: rest2, inserted)
      | none => none := by
  rw [addScan]; simp [h, h2]

theorem chainNode_value {T : Type} (i : Int) (x : T) (rest : List T) :
    (chainNode i x rest).value = some x := by
  cases rest <;> rfl

theorem chainNode_leaf_nil {T : Type} (i : Int) (x : T) :
    (chainNode i x []).leaf = true := rfl

theorem chainNode_leaf_cons {T : Type} (i : Int) (x y : T) (rest : List T) :
    (chainNode i x (y :: rest)).leaf = false := rfl

theorem chain_add {T : Type} [DecidableEq T] :
    ∀ (rest : List T) (i : Int) (x v : T),
      addNode defaultEq defaultComp (i + 1 + rest.length) v (chainNode i x rest) =
        if v ∈ x :: rest then (chainNode i x rest, false)
        else (chainNode i x (rest ++ [v]), true) := by
  intro rest
  induction rest with
  | nil =>
    intro i x v
    by_cases hxv : x = v
    · rw [addNode_of_eq _ _ _ _ _ (by simp [defaultEq, chainNode_value, hxv])]
      rw [if_pos (by simp [hxv.symm])]
    · have hvx : ¬ v = x := fun h => hxv h.symm
      rw [addNode_of_leaf _ _ _ _ _ (by simp [defaultEq, chainNode_value, hxv])
        (chainNode_leaf_nil i x)]
      rw [if_neg (by simp [hvx])]
      simp [chainNode, Node.add]
  | cons y rest ih =>
    intro i x v
    have hnid : i + 1 + (((y :: rest).length : Nat) : Int) =
        (i + 1) + 1 + (rest.length : Int) := by
      push_cast [List.length_cons]; omega
    by_cases hxv : x = v
    · rw [addNode_of_eq _ _ _ _ _ (by simp [defaultEq, chainNode_value, hxv])]
      rw [if_pos (by simp [hxv.symm])]
    · have hvx : ¬ v = x := fun h => hxv h.symm
      rw [addNode_of_scan _ _ _ _ _ (by simp [defaultEq, chainNode_value, hxv])
        (chainNode_leaf_cons i x y rest)]
      have hch : (chainNode i x (y :: rest)).children = [chainNode (i + 1) y rest] := rfl
      rw [hch]
      by_cases hyv : y = v
      · rw [addScan_cons_of_eq _ _ _ _ _ _
          (by simp [defaultEq, chainNode_value, hyv])]
        have hm : v ∈ x :: y :: rest := by simp [hyv.symm]
        rw [if_pos hm]
        simp [chainNode, Node.id, Node.value, Node.childCount, Node.total]
      · have hvy : ¬ v = y := fun h => hyv h.symm
        rw [addScan_cons_of_comp _ _ _ _ _ _
          (by simp [defaultEq, chainNode_value, hyv]) (by simp [defaultComp])]
        rw [hnid, ih (i + 1) y v]
        by_cases hmem : v ∈ rest
        · have hm : v ∈ x :: y :: rest := by simp [hmem]
          have hm2 : v ∈ y :: rest := by simp [hmem]
          rw [if_pos hm2, if_pos hm]
          simp [chainNode, Node.id, Node.value, Node.childCount, Node.total]
        · have hm : ¬ v ∈ x :: y :: rest := by simp [hvx, hvy, hmem]
          have hm2 : ¬ v ∈ y :: rest := by simp [hvy, hmem]
          rw [if_neg hm2, if_neg hm]
          have hrw : (y :: rest) ++ [v] = y :: (rest ++ [v]) := rfl
          rw [hrw]
          have hunf : chainNode i x (y :: (rest ++ [v])) =
              Node.mk i (some x) 1 (1 + (((rest ++ [v]).length : Nat) : Int))
                [chainNode (i + 1) y (rest ++ [v])] := rfl
          rw [hunf]
          simp [chainNode, Node.id, Node.value, Node.childCount, Node.total,
            List.length_append]
          ring_nf

theorem addAll_chain {T : Type} [DecidableEq T] (r : T) :
    ∀ (vs acc : List T),
      Tree.addAll
          ⟨defaultComp, defaultEq, defaultComp, defaultEq,
            1 + (acc.length : Int), chainNode 0 r acc⟩ vs =
        ⟨defaultComp, defaultEq, defaultComp, defaultEq,
          1 + ((extendTail r acc vs).length : Int),
          chainNode 0 r (extendTail r acc vs)⟩ := by
  intro vs
  induction vs with
  | nil => intro acc; simp [Tree.addAll, extendTail]
  | cons v vs ih =>
    intro acc
    have hadd := chain_add acc 0 r v
    have harith : (0 : Int) + 1 + (acc.length : Int) = 1 + acc.length := by omega
    rw [harith] at hadd
    have hstep :
        Tree.add
            ⟨defaultComp, defaultEq, defaultComp, defaultEq,
              1 + (acc.length : Int), chainNode 0 r acc⟩ v =
          if v = r ∨ v ∈ acc then
            ⟨defaultComp, defaultEq, defaultComp, defaultEq,
              1 + (acc.length : Int), chainNode 0 r acc⟩
          else
            ⟨defaultComp, defaultEq, defaultComp, defaultEq,
              1 + ((acc ++ [v]).length : Int), chainNode 0 r (acc ++ [v])⟩ := by
      by_cases hmem : v ∈ r :: acc
      · have hor : v = r ∨ v ∈ acc := by simpa using hmem
        simp [Tree.add, hadd, hmem, hor]
      · have hor : ¬ (v = r ∨ v ∈ acc) := by simpa using hmem
        simp only [Tree.add, hadd, hmem, if_neg, if_false, hor]
        simp [List.length_append]
        omega
    show Tree.addAll (Tree.add _ v) vs = _
    rw [hstep]
    by_cases hor : v = r ∨ v ∈ acc
    · rw [if_pos hor, ih acc,
        show extendTail r acc (v :: vs) = extendTail r acc vs by
          rw [extendTail, if_pos hor]]
    · rw [if_neg hor, ih (acc ++ [v]),
        show extendTail r acc (v :: vs) = extendTail r (acc ++ [v]) vs by
          rw [extendTail, if_neg hor]]

theorem bfs_chain {T : Type} :
    ∀ (rest : List T) (i : Int) (x : T),
      (bfsAux [chainNode i x rest]).map Node.value = some x :: rest.map some := by
  intro rest
  induction rest with
  | nil =>
    intro i x
    rw [chainNode, bfsAux_cons]
    simp [Node.children, bfsAux_nil, Node.value]
  | cons y rest ih =>
    intro i x
    rw [chainNode, bfsAux_cons]
    simp only [Node.children, List.nil_append, List.map_cons, Node.value]
    rw [ih (i + 1) y]

theorem extendTail_nodup {T : Type} [DecidableEq T] (r : T) :
    ∀ (vs acc : List T), r ∉ acc → acc.Nodup →
      (extendTail r acc vs).Nodup ∧ r ∉ extendTail r acc vs := by
  intro vs
  induction vs with
  | nil => intro acc h1 h2; exact ⟨h2, h1⟩
  | cons v vs ih =>
    intro acc h1 h2
    rw [extendTail]
    by_cases hor : v = r ∨ v ∈ acc
    · rw [if_pos hor]; exact ih acc h1 h2
    · rw [if_neg hor]
      push_neg at hor
      have hrv : ¬ r = v := fun h => hor.1 h.symm
      apply ih
      · simp [h1, hrv]
      · simp [List.nodup_append, h2, hor.2]

theorem extendTail_fixed {T : Type} [DecidableEq T] (r : T) :
    ∀ (vs acc : List T), (∀ a ∈ vs, a ≠ r) → (∀ a ∈ vs, a ∉ acc) → vs.Nodup →
      extendTail r acc vs = acc ++ vs := by
  intro vs
  induction vs with
  | nil => intro acc _ _ _; simp [extendTail]
  | cons v vs ih =>
    intro acc h1 h2 h3
    have hor : ¬ (v = r ∨ v ∈ acc) := by
      simp [h1 v (by simp), h2 v (by simp)]
    rw [extendTail, if_neg hor]
    rw [ih (acc ++ [v]) (fun a ha => h1 a (by simp [ha]))
      (fun a ha => by
        simp only [List.mem_append, List.mem_singleton, not_or]
        exact ⟨h2 a (by simp [ha]), by
          intro hav
          exact (List.nodup_cons.mp h3).1 (hav ▸ ha)⟩)
      (List.nodup_cons.mp h3).2]
    simp

theorem filterMap_map_some {T : Type} :
    ∀ l : List T, List.filterMap (fun o => o) (l.map some) = l := by
  intro l
  induction l with
  | nil => rfl
  | cons a l ih => simp [List.filterMap_cons, ih]

/-- C9 (amended): for every tree built from a fresh tree by root-level
`add`/`addAll` with the default predicates (traversal: always descend,
equality: value equality) — such trees are chains of pairwise distinct
values — constructing a second tree from the same root value and
predicates and bulk-inserting the parsed `toJSON()` sequence reproduces
both the node count and the `toJSON()` value sequence.  (The original
claim over arbitrary trees is refuted by `C9_counterexample`: predicates
that do not recognise duplicate values — likewise stateful predicates or
sub-root insertions — break the round-trip.) -/
theorem C9_amended_roundtrip_default {T : Type} [DecidableEq T] (r : T)
    (vs : List T) :
    ((Tree.new r defaultComp defaultEq).addAll
        ((Tree.new r defaultComp defaultEq).addAll vs).parsedValues).count =
      ((Tree.new r defaultComp defaultEq).addAll vs).count ∧
    ((Tree.new r defaultComp defaultEq).addAll
        ((Tree.new r defaultComp defaultEq).addAll vs).parsedValues).toJSONValues =
      ((Tree.new r defaultComp defaultEq).addAll vs).toJSONValues := by
  have hbase :
      Tree.new r defaultComp defaultEq =
        ⟨defaultComp, defaultEq, defaultComp, defaultEq,
          1 + (([] : List T).length : Int), chainNode 0 r []⟩ := by
    simp [Tree.new, chainNode]
  have ht := addAll_chain r vs []
  have hA := extendTail_nodup r vs [] (by simp) (by simp)
  have htJSON :
      ((Tree.new r defaultComp defaultEq).addAll vs).toJSONValues =
        some r :: (extendTail r [] vs).map some := by
    rw [hbase, ht]
    simp only [Tree.toJSONValues]
    exact bfs_chain (extendTail r [] vs) 0 r
  have htParsed :
      ((Tree.new r defaultComp defaultEq).addAll vs).parsedValues =
        r :: extendTail r [] vs := by
    simp only [Tree.parsedValues, htJSON]
    have : some r :: (extendTail r [] vs).map some =
        (r :: extendTail r [] vs).map some := by simp
    rw [this, filterMap_map_some]
  have hfixed : extendTail r [] (extendTail r [] vs) = extendTail r [] vs :=
    extendTail_fixed r (extendTail r [] vs) []
      (fun a ha h => hA.2 (h ▸ ha)) (by simp) hA.1
  have ht2 :
      (Tree.new r defaultComp defaultEq).addAll (r :: extendTail r [] vs) =
        ⟨defaultComp, defaultEq, defaultComp, defaultEq,
          1 + ((extendTail r [] vs).length : Int),
          chainNode 0 r (extendTail r [] vs)⟩ := by
    have hstep := addAll_chain r (r :: extendTail r [] vs) []
    rw [hbase, hstep]
    have hsk : extendTail r [] (r :: extendTail r [] vs) =
        extendTail r [] (extendTail r [] vs) := by
      rw [extendTail]; simp
    rw [hsk, hfixed]
  refine ⟨?_, ?_⟩
  · rw [htParsed, ht2, hbase, ht]
  · rw [htParsed, ht2, hbase, ht]

theorem nodesOf_def {T : Type} (n : Node T) :
    nodesOf n = n :: nodesOfList n.children := by
  cases n; rfl

theorem nodesOfList_nil {T : Type} : nodesOfList ([] : List (Node T)) = [] := rfl

theorem nodesOfList_cons {T : Type} (c : Node T) (rest : List (Node T)) :
    nodesOfList (c :: rest) = nodesOf c ++ nodesOfList rest := rfl

theorem self_mem_nodesOf {T : Type} (n : Node T) : n ∈ nodesOf n := by
  rw [nodesOf_def]; exact List.mem_cons_self _ _

theorem branchGo_of_leaf {T U : Type} (eqS compS : Node T → U → Bool) (v : U)
    (n : Node T) (s : List (Option T)) (hl : n.leaf = true) :
    branchGo eqS compS v n s = if eqS n v then (s, s) else ([], s) := by
  cases n; rw [branchGo]; simp [hl]

theorem branchGo_of_scan {T U : Type} (eqS compS : Node T → U → Bool) (v : U)
    (n : Node T) (s : List (Option T)) (hl : n.leaf = false) :
    branchGo eqS compS v n s =
      match branchScan eqS compS v n.children s with
      | some r => r
      | none => if eqS n v then (s, s) else ([], s) := by
  cases n; rw [branchGo]; simp [hl, Node.children]

theorem branchScan_cons_of_leafEq {T U : Type} (eqS compS : Node T → U → Bool)
    (v : U) (c : Node T) (rest : List (Node T)) (s : List (Option T))
    (h : (c.leaf && eqS c v) = true) :
    branchScan eqS compS v (c :: rest) s =
      some (s ++ [c.value], s ++ [c.value]) := by
  rw [branchScan]; simp [h]

theorem branchScan_cons_of_comp {T U : Type} (eqS compS : Node T → U → Bool)
    (v : U) (c : Node T) (rest : List (Node T)) (s : List (Option T))
    (h : (c.leaf && eqS c v) = false) (h2 : compS c v = true) :
    branchScan eqS compS v (c :: rest) s =
      some (branchGo eqS compS v c (s ++ [c.value])) := by
  rw [branchScan]; simp [h, h2]

theorem branchScan_cons_of_skip {T U : Type} (eqS compS : Node T → U → Bool)
    (v : U) (c : Node T) (rest : List (Node T)) (s : List (Option T))
    (h : (c.leaf && eqS c v) = false) (h2 : compS c v = false) :
    branchScan eqS compS v (c :: rest) s = branchScan eqS compS v rest s := by
  rw [branchScan]; simp [h, h2]

theorem branchAllGo_of_leaf {T U : Type} (eqS compS : Node T → U → Bool)
    (v : U) (n : Node T) (s : List (Option T)) (found : Bool)
    (hl : n.leaf = true) :
    branchAllGo eqS compS v n s found =
      if found || eqS n v then (s, s) else ([], s) := by
  cases n; rw [branchAllGo]; simp [hl]

theorem branchAllGo_of_scan {T U : Type} (eqS compS : Node T → U → Bool)
    (v : U) (n : Node T) (s : List (Option T)) (found : Bool)
    (hl : n.leaf = false) :
    branchAllGo eqS compS v n s found =
      match branchAllScan eqS compS v n.children s found with
      | (some r, _) => r
      | (none, s2) => if found || eqS n v then (s2, s2) else ([], s2) := by
  cases n; rw [branchAllGo]; simp [hl, Node.children]

theorem branchAllScan_cons_found_leaf {T U : Type}
    (eqS compS : Node T → U → Bool) (v : U) (c : Node T)
    (rest : List (Node T)) (s : List (Option T)) (hl : c.leaf = true) :
    branchAllScan eqS compS v (c :: rest) s true =
      branchAllScan eqS compS v rest (s ++ [c.value]) true := by
  rw [branchAllScan]; simp [hl]

theorem branchAllScan_cons_found_nonleaf {T U : Type}
    (eqS compS : Node T → U → Bool) (v : U) (c : Node T)
    (rest : List (Node T)) (s : List (Option T)) (hl : c.leaf = false) :
    branchAllScan eqS compS v (c :: rest) s true =
      (some (branchAllGo eqS compS v c (s ++ [c.value]) true), s ++ [c.value]) := by
  rw [branchAllScan]; simp [hl]

theorem branchAllScan_cons_eq_leaf {T U : Type}
    (eqS compS : Node T → U → Bool) (v : U) (c : Node T)
    (rest : List (Node T)) (s : List (Option T))
    (he : eqS c v = true) (hl : c.leaf = true) :
    branchAllScan eqS compS v (c :: rest) s false =
      (some (s ++ [c.value], s ++ [c.value]), s ++ [c.value]) := by
  rw [branchAllScan]; simp [he, hl]

theorem branchAllScan_cons_eq_nonleaf {T U : Type}
    (eqS compS : Node T → U → Bool) (v : U) (c : Node T)
    (rest : List (Node T)) (s : List (Option T))
    (he : eqS c v = true) (hl : c.leaf = false) :
    branchAllScan eqS compS v (c :: rest) s false =
      (some (branchAllGo eqS compS v c (s ++ [c.value]) true), s ++ [c.value]) := by
  rw [branchAllScan]; simp [he, hl]

theorem branchAllScan_cons_comp {T U : Type}
    (eqS compS : Node T → U → Bool) (v : U) (c : Node T)
    (rest : List (Node T)) (s : List (Option T))
    (he : eqS c v = false) (hc : compS c v = true) :
    branchAllScan eqS compS v (c :: rest) s false =
      (some (branchAllGo eqS compS v c (s ++ [c.value]) false), s ++ [c.value]) := by
  rw [branchAllScan]; simp [he, hc]

theorem branchAllScan_cons_skip {T U : Type}
    (eqS compS : Node T → U → Bool) (v : U) (c : Node T)
    (rest : List (Node T)) (s : List (Option T))
    (he : eqS c v = false) (hc : compS c v = false) :
    branchAllScan eqS compS v (c :: rest) s false =
      branchAllScan eqS compS v rest s false := by
  rw [branchAllScan]; simp [he, hc]

mutual

theorem branchGo_nomatch {T U : Type} (eqS compS : Node T → U → Bool) (v : U) :
    ∀ n : Node T, (∀ m ∈ nodesOf n, eqS m v = false) →
      ∀ s, (branchGo eqS compS v n s).1 = []
  | .mk i val cc tot cs, h, s => by
    have hn : eqS (Node.mk i val cc tot cs) v = false :=
      h _ (self_mem_nodesOf _)
    have hcs : ∀ m ∈ nodesOfList cs, eqS m v = false := by
      intro m hm
      exact h m (by rw [nodesOf_def]; exact List.mem_cons_of_mem _ hm)
    cases hl : (Node.mk i val cc tot cs).leaf with
    | true => rw [branchGo_of_leaf eqS compS v _ s hl]; simp [hn]
    | false =>
      rw [branchGo_of_scan eqS compS v _ s hl]
      have hch : (Node.mk i val cc tot cs).children = cs := rfl
      rw [hch]
      cases hscan : branchScan eqS compS v cs s with
      | none => simp [hn]
      | some r =>
        have := branchScan_nomatch eqS compS v cs hcs s r hscan
        simpa using this
  termination_by structural n => n

theorem branchScan_nomatch {T U : Type} (eqS compS : Node T → U → Bool) (v : U) :
    ∀ cs : List (Node T), (∀ m ∈ nodesOfList cs, eqS m v = false) →
      ∀ s r, branchScan eqS compS v cs s = some r → r.1 = []
  | [], _, s, r, hr => by rw [branchScan] at hr; cases hr
  | c :: rest, h, s, r, hr => by
    have hce : eqS c v = false :=
      h c (by rw [nodesOfList_cons]; exact List.mem_append_left _ (self_mem_nodesOf c))
    have hc1 : (c.leaf && eqS c v) = false := by simp [hce]
    have hcsub : ∀ m ∈ nodesOf c, eqS m v = false := by
      intro m hm
      exact h m (by rw [nodesOfList_cons]; exact List.mem_append_left _ hm)
    have hrest : ∀ m ∈ nodesOfList rest, eqS m v = false := by
      intro m hm
      exact h m (by rw [nodesOfList_cons]; exact List.mem_append_right _ hm)
    by_cases hcc : compS c v = true
    · rw [branchScan_cons_of_comp eqS compS v c rest s hc1 hcc] at hr
      have hres := branchGo_nomatch eqS compS v c hcsub (s ++ [c.value])
      cases hr
      exact hres
    · rw [branchScan_cons_of_skip eqS compS v c rest s hc1
        (by simpa using hcc)] at hr
      exact branchScan_nomatch eqS compS v rest hrest s r hr
  termination_by structural cs => cs

end

mutual

theorem branchAllGo_found {T U : Type} (eqS compS : Node T → U → Bool) (v : U) :
    ∀ n : Node T, ∀ s, ∃ e, (branchAllGo eqS compS v n s true).1 = s ++ e
  | .mk i val cc tot cs, s => by
    cases hl : (Node.mk i val cc tot cs).leaf with
    | true =>
      rw [branchAllGo_of_leaf eqS compS v _ s true hl]
      exact ⟨[], by simp⟩
    | false =>
      rw [branchAllGo_of_scan eqS compS v _ s true hl]
      have hch : (Node.mk i val cc tot cs).children = cs := rfl
      rw [hch]
      rcases branchAllScan_found eqS compS v cs s with ⟨r, s2, hr, e, he⟩ | ⟨e, he⟩
      · rw [hr]; exact ⟨e, he⟩
      · rw [he]; exact ⟨e, by simp⟩
  termination_by structural n => n

theorem branchAllScan_found {T U : Type} (eqS compS : Node T → U → Bool) (v : U) :
    ∀ cs : List (Node T), ∀ s,
      (∃ r s2, branchAllScan eqS compS v cs s true = (some r, s2) ∧
        ∃ e, r.1 = s ++ e) ∨
      (∃ e, branchAllScan eqS compS v cs s true = (none, s ++ e))
  | [], s => by right; exact ⟨[], by rw [branchAllScan]; simp⟩
  | c :: rest, s => by
    cases hl : c.leaf with
    | true =>
      rw [branchAllScan_cons_found_leaf eqS compS v c rest s hl]
      rcases branchAllScan_found eqS compS v rest (s ++ [c.value]) with
        ⟨r, s2, hr, e, he⟩ | ⟨e, he⟩
      · left
        exact ⟨r, s2, hr, [c.value] ++ e, by rw [he]; simp⟩
      · right
        exact ⟨[c.value] ++ e, by rw [he]; simp⟩
    | false =>
      rw [branchAllScan_cons_found_nonleaf eqS compS v c rest s hl]
      obtain ⟨e, he⟩ := branchAllGo_found eqS compS v c (s ++ [c.value])
      left
      exact ⟨branchAllGo eqS compS v c (s ++ [c.value]) true, s ++ [c.value],
        rfl, [c.value] ++ e, by rw [he]; simp⟩
  termination_by structural cs => cs

end

theorem branchGo_atMatch {T U : Type} (eqS compS : Node T → U → Bool) (v : U)
    (n : Node T) (hn : eqS n v = true)
    (hcs : ∀ m ∈ nodesOfList n.children, eqS m v = false)
    (s : List (Option T)) :
    (branchGo eqS compS v n s).1 = [] ∨ (branchGo eqS compS v n s).1 = s := by
  cases hl : n.leaf with
  | true => rw [branchGo_of_leaf eqS compS v n s hl]; simp [hn]
  | false =>
    rw [branchGo_of_scan eqS compS v n s hl]
    cases hscan : branchScan eqS compS v n.children s with
    | none => simp [hn]
    | some r =>
      left
      simpa using branchScan_nomatch eqS compS v n.children hcs s r hscan

mutual

theorem branch_prefix_main {T U : Type} (eqS compS : Node T → U → Bool) (v : U) :
    ∀ n : Node T, eqS n v = false →
      (nodesOf n).countP (fun m => eqS m v) = 1 →
      (∀ m ∈ nodesOf n, eqS m v = true → m.leaf = false) →
      ∀ s, ∃ e, (branchAllGo eqS compS v n s false).1 =
        (branchGo eqS compS v n s).1 ++ e
  | .mk i val cc tot cs, hn, hcount, hnl, s => by
    cases hl : (Node.mk i val cc tot cs).leaf with
    | true =>
      rw [branchGo_of_leaf eqS compS v _ s hl,
        branchAllGo_of_leaf eqS compS v _ s false hl]
      exact ⟨[], by simp [hn]⟩
    | false =>
      have hccount : (nodesOfList cs).countP (fun m => eqS m v) = 1 := by
        rw [nodesOf_def] at hcount
        simpa [List.countP_cons, hn] using hcount
      have hnl' : ∀ m ∈ nodesOfList cs, eqS m v = true → m.leaf = false := by
        intro m hm
        exact hnl m (by rw [nodesOf_def]; exact List.mem_cons_of_mem _ hm)
      rw [branchGo_of_scan eqS compS v _ s hl,
        branchAllGo_of_scan eqS compS v _ s false hl]
      have hch : (Node.mk i val cc tot cs).children = cs := rfl
      rw [hch]
      cases hscan : branchScan eqS compS v cs s with
      | none =>
        refine ⟨(match branchAllScan eqS compS v cs s false with
          | (some r, _) => r
          | (none, s2) =>
            if (false || eqS (Node.mk i val cc tot cs) v) = true
            then (s2, s2) else ([], s2)).1, ?_⟩
        simp [hn]
      | some r =>
        by_cases hr1 : r.1 = []
        · refine ⟨(match branchAllScan eqS compS v cs s false with
            | (some rr, _) => rr
            | (none, s2) =>
              if (false || eqS (Node.mk i val cc tot cs) v) = true
              then (s2, s2) else ([], s2)).1, ?_⟩
          simp [hr1]
        · obtain ⟨rA, s2, e, hAs, hpre⟩ :=
            branch_prefix_scan eqS compS v cs hccount hnl' s r hscan hr1
          rw [hAs]
          exact ⟨e, hpre⟩
  termination_by structural n => n

theorem branch_prefix_scan {T U : Type} (eqS compS : Node T → U → Bool) (v : U) :
    ∀ cs : List (Node T),
      (nodesOfList cs).countP (fun m => eqS m v) = 1 →
      (∀ m ∈ nodesOfList cs, eqS m v = true → m.leaf = false) →
      ∀ s r, branchScan eqS compS v cs s = some r → r.1 ≠ [] →
        ∃ rA s2 e, branchAllScan eqS compS v cs s false = (some rA, s2) ∧
          rA.1 = r.1 ++ e
  | [], _, _, s, r, hr, _ => by rw [branchScan] at hr; cases hr
  | c :: rest, hcount, hnl, s, r, hr, hr1 => by
    have hsplit : (nodesOf c).countP (fun m => eqS m v) +
        (nodesOfList rest).countP (fun m => eqS m v) = 1 := by
      rw [nodesOfList_cons, List.countP_append] at hcount; exact hcount
    have hnlc : ∀ m ∈ nodesOf c, eqS m v = true → m.leaf = false := by
      intro m hm
      exact hnl m (by rw [nodesOfList_cons]; exact List.mem_append_left _ hm)
    have hnlr : ∀ m ∈ nodesOfList rest, eqS m v = true → m.leaf = false := by
      intro m hm
      exact hnl m (by rw [nodesOfList_cons]; exact List.mem_append_right _ hm)
    by_cases hce : eqS c v = true
    · have hcl : c.leaf = false := hnlc c (self_mem_nodesOf c) hce
      have h1 : (c.leaf && eqS c v) = false := by simp [hcl]
      have hchead : (nodesOf c).countP (fun m => eqS m v) =
          (nodesOfList c.children).countP (fun m => eqS m v) + 1 := by
        rw [nodesOf_def, List.countP_cons]; simp [hce]
      have hcfree : ∀ m ∈ nodesOfList c.children, eqS m v = false := by
        have h3 : (nodesOfList c.children).countP (fun m => eqS m v) = 0 := by
          omega
        intro m hm
        simpa using List.countP_eq_zero.mp h3 m hm
      by_cases hcc : compS c v = true
      · rw [branchScan_cons_of_comp eqS compS v c rest s h1 hcc] at hr
        cases hr
        rcases branchGo_atMatch eqS compS v c hce hcfree (s ++ [c.value]) with
          h0 | hsv
        · exact absurd h0 hr1
        · rw [branchAllScan_cons_eq_nonleaf eqS compS v c rest s hce hcl]
          obtain ⟨e, he⟩ := branchAllGo_found eqS compS v c (s ++ [c.value])
          exact ⟨_, _, e, rfl, by rw [he, hsv]⟩
      · have hrest0 : (nodesOfList rest).countP (fun m => eqS m v) = 0 := by
          omega
        have hrfree : ∀ m ∈ nodesOfList rest, eqS m v = false := by
          intro m hm
          simpa using List.countP_eq_zero.mp hrest0 m hm
        rw [branchScan_cons_of_skip eqS compS v c rest s h1
          (by simpa using hcc)] at hr
        exact absurd (branchScan_nomatch eqS compS v rest hrfree s r hr) hr1
    · have hce' : eqS c v = false := by simpa using hce
      have h1 : (c.leaf && eqS c v) = false := by simp [hce']
      by_cases hcc : compS c v = true
      · rw [branchScan_cons_of_comp eqS compS v c rest s h1 hcc] at hr
        cases hr
        cases hc0 : (nodesOf c).countP (fun m => eqS m v) with
        | zero =>
          have hcfree : ∀ m ∈ nodesOf c, eqS m v = false := by
            intro m hm
            simpa using List.countP_eq_zero.mp hc0 m hm
          exact absurd
            (branchGo_nomatch eqS compS v c hcfree (s ++ [c.value])) hr1
        | succ k =>
          have hc1 : (nodesOf c).countP (fun m => eqS m v) = 1 := by omega
          obtain ⟨e, he⟩ :=
            branch_prefix_main eqS compS v c hce' hc1 hnlc (s ++ [c.value])
          rw [branchAllScan_cons_comp eqS compS v c rest s hce' hcc]
          exact ⟨_, _, e, rfl, he⟩
      · have hcc' : compS c v = false := by simpa using hcc
        rw [branchScan_cons_of_skip eqS compS v c rest s h1 hcc'] at hr
        cases hc0 : (nodesOf c).countP (fun m => eqS m v) with
        | zero =>
          have hrest1 : (nodesOfList rest).countP (fun m => eqS m v) = 1 := by
            omega
          obtain ⟨rA, s2, e, hAs, hpre⟩ :=
            branch_prefix_scan eqS compS v rest hrest1 hnlr s r hr hr1
          rw [branchAllScan_cons_skip eqS compS v c rest s hce' hcc']
          exact ⟨rA, s2, e, hAs, hpre⟩
        | succ k =>
          have hrest0 : (nodesOfList rest).countP (fun m => eqS m v) = 0 := by
            omega
          have hrfree : ∀ m ∈ nodesOfList rest, eqS m v = false := by
            intro m hm
            simpa using List.countP_eq_zero.mp hrest0 m hm
          exact absurd (branchScan_nomatch eqS compS v rest hrfree s r hr) hr1
  termination_by structural cs => cs

end

/-- C7 (amended): whenever the equality predicate identifies exactly one
node of the tree and that node is not a leaf, the value sequence returned
by `branchAll(v)` is a superset of the one returned by `branch(v)` (indeed
`branch(v)` is a prefix of it).  The further part of the original claim —
that `branchAll(v)` also contains every descendant value of the identified
node — is refuted by `C7_counterexample`: the found-phase collects only the
leftmost-first expansion and abandons siblings occurring after the first
non-leaf child. -/
theorem C7_amended_superset {T U : Type} (t : Tree T U) (v : U)
    (hcount : (nodesOf t.root).countP (fun m => t.eq m v) = 1)
    (hnl : ∀ m ∈ nodesOf t.root, t.eq m v = true → m.leaf = false) :
    ∀ x ∈ t.branch v, x ∈ t.branchAll v := by
  intro x hx
  unfold Tree.branch at hx
  unfold Tree.branchAll
  by_cases hroot : t.eq t.root v = true
  · rw [hroot]
    have hchead : (nodesOf t.root).countP (fun m => t.eq m v) =
        (nodesOfList t.root.children).countP (fun m => t.eq m v) + 1 := by
      rw [nodesOf_def, List.countP_cons]; simp [hroot]
    have hcfree : ∀ m ∈ nodesOfList t.root.children, t.eq m v = false := by
      have h3 : (nodesOfList t.root.children).countP (fun m => t.eq m v) = 0 := by
        omega
      intro m hm
      simpa using List.countP_eq_zero.mp h3 m hm
    rcases branchGo_atMatch t.eq t.comp v t.root hroot hcfree [t.root.value] with
      h0 | hsv
    · rw [h0] at hx; cases hx
    · rw [hsv] at hx
      obtain ⟨e, he⟩ := branchAllGo_found t.eq t.comp v t.root [t.root.value]
      rw [he]
      exact List.mem_append_left _ hx
  · have hroot' : t.eq t.root v = false := by simpa using hroot
    rw [hroot']
    obtain ⟨e, he⟩ :=
      branch_prefix_main t.eq t.comp v t.root hroot' hcount hnl [t.root.value]
    rw [he]
    exact List.mem_append_left _ hx

/-- Witness for C7 (amended) on the scenario tree with target 0: the root
is the unique (non-leaf) match, and the element of `branch(0)` is indeed in
`branchAll(0)`. -/
theorem C7_witness :
    (nodesOf exBase.root).countP (fun m => exBase.eq m 0) = 1 ∧
    some 0 ∈ exBase.branch 0 ∧
    some 0 ∈ exBase.branchAll 0 :=
  ⟨by decide, by decide,
    C7_amended_superset exBase 0 (by decide) (by decide) (some 0) (by decide)⟩

/-- Witness for C9 (amended) at a concrete chain: root 0 with inserted
values `[2, 1, 2]` (the duplicate 2 no-ops). -/
theorem C9_witness :
    ((Tree.new (0 : Int) defaultComp defaultEq).addAll
        ((Tree.new (0 : Int) defaultComp defaultEq).addAll [2, 1, 2]).parsedValues).count =
      ((Tree.new (0 : Int) defaultComp defaultEq).addAll [2, 1, 2]).count ∧
    ((Tree.new (0 : Int) defaultComp defaultEq).addAll
        ((Tree.new (0 : Int) defaultComp defaultEq).addAll [2, 1, 2]).parsedValues).toJSONValues =
      ((Tree.new (0 : Int) defaultComp defaultEq).addAll [2, 1, 2]).toJSONValues :=
  C9_amended_roundtrip_default 0 [2, 1, 2]

end MiniTree
